import Mathlib

/-!
Verification of the daily-stoic extractor (src/main.rs).

Strings are modelled as `List Char` (Rust `&str`/`String`), fallible code as
`Option`/`Except` (a `none` models a Rust panic), and the line-oriented
document operations (`str::lines`, `starts_with`, `trim`, `join`) are embedded
directly.  The external crates (chrono, serde_json, reqwest) are collaborators:
chrono's date parsing/formatting/arithmetic is modelled from the spec's Date
Normalizer contract (§4.1), serde_json values as an inductive `Json`, and the
HTTP layers are dropped (their responses become explicit inputs).
-/

namespace DailyStoic

/-- Coerce a Lean string literal to the `List Char` representation used
throughout. -/
def s2l (s : String) : List Char := s.data

/-- Whitespace predicate used by Rust `str::trim` (`char::is_whitespace`,
the Unicode White_Space property). -/
def isWS (c : Char) : Bool :=
  let n := c.toNat
  n == 0x09 || n == 0x0A || n == 0x0B || n == 0x0C || n == 0x0D || n == 0x20 ||
  n == 0x85 || n == 0xA0 || n == 0x1680 || (0x2000 ≤ n && n ≤ 0x200A) ||
  n == 0x2028 || n == 0x2029 || n == 0x202F || n == 0x205F || n == 0x3000

/-- Rust `str::trim`: strip leading and trailing whitespace. -/
def trim (l : List Char) : List Char :=
  ((l.dropWhile isWS).reverse.dropWhile isWS).reverse

/-- Rust `str::starts_with` on char sequences: first argument is the line,
second the pattern. -/
def startsWith : List Char → List Char → Bool
  | _, [] => true
  | [], _ :: _ => false
  | c :: cs, p :: ps => c == p && startsWith cs ps

/-- Strip one trailing carriage return (the `\r` of a `\r\n` line ending),
as Rust `str::lines` does on every `\n`-terminated piece. -/
def rstripCR (l : List Char) : List Char :=
  if l.getLast? = some '\r' then l.dropLast else l

/-- Worker for `linesOf`: `acc` holds the current (reversed) line. -/
def linesOfAux : List Char → List Char → List (List Char)
  | acc, [] => if acc.isEmpty then [] else [acc.reverse]
  | acc, c :: cs =>
    if c = '\n' then rstripCR acc.reverse :: linesOfAux [] cs
    else linesOfAux (c :: acc) cs

/-- Rust `str::lines`: split at `\n` (also consuming a preceding `\r`),
with no trailing empty line for a trailing newline. -/
def linesOf (s : List Char) : List (List Char) := linesOfAux [] s

/-! ## Date model

`CalDate` models chrono `NaiveDate` as a raw (year, month, day) triple with a
Boolean validity predicate.  chrono is an external crate; its behaviour is
modelled from the spec (§4.1). -/

structure CalDate where
  year : Int
  month : Nat
  day : Nat
deriving DecidableEq

/-- Proleptic Gregorian leap-year rule. -/
def isLeap (y : Int) : Bool :=
  y % 4 == 0 && (!(y % 100 == 0) || y % 400 == 0)

/-- Number of days of month `m` (1-based) in year `y`; `0` for an invalid
month index. -/
def daysInMonth (y : Int) (m : Nat) : Nat :=
  match m with
  | 1 => 31
  | 2 => if isLeap y then 29 else 28
  | 3 => 31
  | 4 => 30
  | 5 => 31
  | 6 => 30
  | 7 => 31
  | 8 => 31
  | 9 => 30
  | 10 => 31
  | 11 => 30
  | 12 => 31
  | _ => 0

/-- Calendar validity of a `CalDate`. -/
def validCal (c : CalDate) : Bool :=
  1 ≤ c.month && c.month ≤ 12 && 1 ≤ c.day && c.day ≤ daysInMonth c.year c.month

/-- Modelled from the spec: chrono `NaiveDate::with_year` (an external crate
operation used at src/main.rs:60) returns the same month/day re-anchored to
the given year when that calendar date exists, and `None` otherwise. -/
def with_year (c : CalDate) (y : Int) : Option CalDate :=
  if validCal ⟨y, c.month, c.day⟩ then some ⟨y, c.month, c.day⟩ else none

/-- The twelve full month names used by the `%B` rendering. -/
def monthNames : List (List Char) :=
  [s2l "January", s2l "February", s2l "March", s2l "April", s2l "May",
   s2l "June", s2l "July", s2l "August", s2l "September", s2l "October",
   s2l "November", s2l "December"]

/-- Full name of month `m` (1-based). -/
def monthName (m : Nat) : List Char := monthNames.getD (m - 1) []

/-- Decimal digit character for `n < 10`. -/
def digitChar (n : Nat) : Char :=
  match n with
  | 0 => '0' | 1 => '1' | 2 => '2' | 3 => '3' | 4 => '4'
  | 5 => '5' | 6 => '6' | 7 => '7' | 8 => '8' | 9 => '9'
  | _ => '*'

/-- Value of a decimal digit character. -/
def digitVal (c : Char) : Option Nat :=
  if c = '0' then some 0 else if c = '1' then some 1 else if c = '2' then some 2
  else if c = '3' then some 3 else if c = '4' then some 4 else if c = '5' then some 5
  else if c = '6' then some 6 else if c = '7' then some 7 else if c = '8' then some 8
  else if c = '9' then some 9 else none

/-- Non-zero-padded decimal rendering of a day-of-month (`%-d`); days are
always `< 100` so two digits suffice. -/
def render2 (n : Nat) : List Char :=
  if n < 10 then [digitChar n] else [digitChar (n / 10), digitChar (n % 10)]

/-- Modelled from the spec: the `%B %-d` rendering contract of §4.1 — full
month name, a space, and the non-zero-padded day. -/
def formatLabel (m d : Nat) : List Char := monthName m ++ ' ' :: render2 d

/-- Day-of-month token of the `%-d` field: one or two digits, no leading
zero on two-digit values (the canonical rendering accepted per §4.1). -/
def parseDay? (s : List Char) : Option Nat :=
  match s with
  | [c] => digitVal c
  | [c1, c2] =>
    match digitVal c1, digitVal c2 with
    | some a, some b => if a = 0 then none else some (10 * a + b)
    | _, _ => none
  | _ => none

/-- Year token of the `%Y` field: four decimal digits (the only year the
program ever supplies is the literal `2000`). -/
def parseYear? (s : List Char) : Option Int :=
  match s with
  | [c1, c2, c3, c4] =>
    match digitVal c1, digitVal c2, digitVal c3, digitVal c4 with
    | some a, some b, some c, some d =>
      some (Int.ofNat (1000 * a + 100 * b + 10 * c + d))
    | _, _, _, _ => none
  | _ => none

/-- Worker for `idxOfMonth`: position (starting at `i`) of the first name
equal to `mo`. -/
def idxOfMonthAux : List (List Char) → Nat → List Char → Option Nat
  | [], _, _ => none
  | n :: ns, i, mo => if mo = n then some i else idxOfMonthAux ns (i + 1) mo

/-- 1-based month number of a full month name. -/
def idxOfMonth (mo : List Char) : Option Nat := idxOfMonthAux monthNames 1 mo

/-- Split a char list at every space (pieces may be empty). -/
def splitSp : List Char → List (List Char)
  | [] => [[]]
  | c :: cs =>
    if c = ' ' then [] :: splitSp cs
    else
      match splitSp cs with
      | [] => [[c]]
      | l :: ls => (c :: l) :: ls

/-- Inverse of `splitSp`: rejoin pieces with single spaces. -/
def unsplit : List (List Char) → List Char
  | [] => []
  | [l] => l
  | l :: ls => l ++ ' ' :: unsplit ls

/-- Modelled from the spec: chrono `NaiveDate::parse_from_str` with format
`"%B %-d %Y"` (an external crate function used at src/main.rs:69 and
src/main.rs:116).  Per §4.1 it accepts a full month name and a day valid in
that month of the given year, in the canonical `%B %-d` rendering, and
rejects everything else. -/
def parse_from_str (s : List Char) : Option CalDate :=
  match splitSp s with
  | [mo, ds, ys] =>
    match idxOfMonth mo, parseDay? ds, parseYear? ys with
    | some m, some d, some y =>
      if validCal ⟨y, m, d⟩ then some ⟨y, m, d⟩ else none
    | _, _, _ => none
  | _ => none

/-- Modelled from the spec: adding `Days::new(1)` to a date (§4.1
"computed by adding one day within the reference leap year"), with month and
year rollover. -/
def succDay (c : CalDate) : CalDate :=
  if c.day < daysInMonth c.year c.month then ⟨c.year, c.month, c.day + 1⟩
  else if c.month < 12 then ⟨c.year, c.month + 1, 1⟩
  else ⟨c.year + 1, 1, 1⟩

/-- src/main.rs:114–119 `increment_date`: append `" 2000"`, parse with
`"%B %-d %Y"` (the `.unwrap()` panic is modelled as `none`), add one day,
and re-render as `%B %-d`. -/
def increment_date (date : List Char) : Option (List Char) :=
  (parse_from_str (date ++ s2l " 2000")).map
    (fun dt => formatLabel (succDay dt).month (succDay dt).day)

/-- src/main.rs:19–23: the successor boundary passed to the locator — the
fixed sentinel for the literal last day, date arithmetic otherwise. -/
def next_date_of (date : List Char) : Option (List Char) :=
  if date = s2l "December 31" then some (s2l "STAYING STOIC")
  else increment_date date

/-- src/main.rs:53–75 `get_date_arg`, as a function of the process arguments
and the current system date (both read from the environment in the source).
The first real argument sits at index 2; with fewer than 3 arguments the
current date is re-anchored to the leap year 2000 (`with_year(2000).unwrap()`,
the panic modelled as the outer `none`) and rendered `%B %-d`; otherwise the
argument has `" 2000"` appended, is parsed with `"%B %-d %Y"`, and is
re-rendered `%B %-d`, any parse failure becoming an error value. -/
def get_date_arg (args : List (List Char)) (today : CalDate) :
    Option (Except (List Char) (List Char)) :=
  if args.length < 3 then
    (with_year today 2000).map (fun t => Except.ok (formatLabel t.month t.day))
  else
    let input := args.getD 2 []
    let full_date := input ++ s2l " 2000"
    some (match parse_from_str full_date with
          | some dt => Except.ok (formatLabel dt.month dt.day)
          | none => Except.error (s2l "Invalid date format for arg " ++ input))

/-! ## Record Locator -/

/-- src/main.rs:87–112 `get_date_text`: split the document into lines, scan
for the first line starting with `date` (`start`), then from `start + 1` for
the first line starting with `next_date` (`end`); return `None` when either
scan runs off the end, else the lines `[start, end)` joined with `"\n"`. -/
def get_date_text (text date next_date : List Char) : Option (List Char) :=
  let lines := linesOf text
  let start := lines.findIdx (fun l => startsWith l date)
  if start ≥ lines.length then none
  else
    let stop := start + 1 + (lines.drop (start + 1)).findIdx (fun l => startsWith l next_date)
    if stop ≥ lines.length then none
    else some (List.intercalate [
      '\n'] ((lines.drop start).take (stop - start)))

/-! ## Field Segmenter -/

/-- src/main.rs:121–127 `Daily`. -/
structure Daily where
  date : List Char
  title : List Char
  quote : List Char
  quoter : List Char
  explanation : List Char
deriving DecidableEq

/-- The attribution marker: a single em-dash, the `"—"` of
src/main.rs:138. -/
def emdashStr : List Char := ['—']

/-- src/main.rs:129–167 `format_daily`: line 0 is the date, line 1 the title;
scan from line 2 for the first line starting with the em-dash (`quote_end`);
the quote is lines `[2, quote_end)` joined with spaces and trimmed, the
quoter is line `quote_end` trimmed, the explanation is the remaining lines
joined with spaces and trimmed.  The source's index panics and
`Option::expect` are modelled as `none`. -/
def format_daily (text : List Char) : Option Daily :=
  let lines := linesOf text
  match lines.get? 0, lines.get? 1 with
  | some l0, some l1 =>
    let relIdx := (lines.drop 2).findIdx (fun l => startsWith l emdashStr)
    if relIdx < (lines.drop 2).length then
      let quote_end := 2 + relIdx
      some { date := trim l0
             title := trim l1
             quote := trim (List.intercalate [' '] ((lines.drop 2).take (quote_end - 2)))
             quoter := trim (lines.getD quote_end [])
             explanation := trim (List.intercalate [' '] (lines.drop (quote_end + 1))) }
    else none
  | _, _ => none

/-! ## Correction pipeline

serde_json `Value` is modelled as `Json`; the HTTP transport is dropped, so
the collaborator's decoded response body is an explicit input. -/

inductive Json where
  | null
  | bool (b : Bool)
  | num (n : Int)
  | str (s : List Char)
  | arr (elems : List Json)
  | obj (fields : List (List Char × Json))

/-- serde_json `Value::get(key)`: `Some` field of an object, `None` for a
missing key or a non-object. -/
def Json.get : Json → List Char → Option Json
  | .obj fields, key => go fields key
  | _, _ => none
where
  go : List (List Char × Json) → List Char → Option Json
  | [], _ => none
  | (k, v) :: rest, key => if k = key then some v else go rest key

/-- serde_json `Value::index` with a string key: like `get` but yielding
`Null` when absent. -/
def Json.index (j : Json) (key : List Char) : Json := (j.get key).getD .null

/-- serde_json `Value::index` with a numeric index: `Null` when out of range
or not an array. -/
def Json.indexNat : Json → Nat → Json
  | .arr elems, i => (elems.get? i).getD .null
  | _, _ => .null

/-- serde_json `Value::as_str`. -/
def Json.as_str : Json → Option (List Char)
  | .str s => some s
  | _ => none

/-- The three distinct error strings produced at src/main.rs:217, 219 and
225, abstracted as tags (the `message` payload of the first is kept). -/
inductive FixErr where
  | errWithMessage (message : Json)
  | errNoMessage
  | noContent

/-- src/main.rs:211–228, the decision logic of `fix_text_using_llm` on the
decoded response: a top-level `"error"` object fails (with its `"message"`
when present), otherwise `response_json["choices"][0]["message"]["content"]`
must be a string. -/
def fix_text_using_llm (response_json : Json) : Except FixErr (List Char) :=
  match response_json.get (s2l "error") with
  | some error =>
    match error.get (s2l "message") with
    | some message => .error (.errWithMessage message)
    | none => .error .errNoMessage
  | none =>
    match (((response_json.index (s2l "choices")).indexNat 0).index
            (s2l "message")).index (s2l "content") |>.as_str with
    | some s => .ok s
    | none => .error .noContent

/-- src/main.rs:36–42: the two correction calls of `main` and the
substitution of their results into the record; the `?` operator propagates
the first error. -/
def apply_corrections (d : Daily) (respQuote respExpl : Json) : Except FixErr Daily :=
  match fix_text_using_llm respQuote with
  | .error e => .error e
  | .ok q =>
    match fix_text_using_llm respExpl with
    | .error e => .error e
    | .ok ex => .ok { d with quote := q, explanation := ex }

/-! ## Helper lemmas: splitting and rendering -/

lemma splitSp_ne_nil (s : List Char) : splitSp s ≠ [] := by
  cases s with
  | nil => simp [splitSp]
  | cons c cs =>
    simp only [splitSp]
    split
    · simp
    · split <;> simp

lemma splitSp_append (x y : List Char) :
    splitSp (x ++ ' ' :: y) = splitSp x ++ splitSp y := by
  induction x with
  | nil => simp [splitSp]
  | cons c cs ih =>
    by_cases hc : c = ' '
    · subst hc
      simp [splitSp, ih]
    · rcases h : splitSp cs with _ | ⟨l, ls⟩
      · exact absurd h (splitSp_ne_nil cs)
      · simp only [List.cons_append, splitSp, if_neg hc, List.append_eq]
        rw [ih, h]
        simp

lemma splitSp_eq_single (x : List Char) (h : ∀ c ∈ x, c ≠ ' ') : splitSp x = [x] := by
  induction x with
  | nil => rfl
  | cons c cs ih =>
    have hc : c ≠ ' ' := h c (by simp)
    have hrest := ih (fun a ha => h a (by simp [ha]))
    simp [splitSp, hc, hrest]

lemma unsplit_splitSp (s : List Char) : unsplit (splitSp s) = s := by
  induction s with
  | nil => rfl
  | cons c cs ih =>
    by_cases hc : c = ' '
    · subst hc
      rcases h : splitSp cs with _ | ⟨l, ls⟩
      · exact absurd h (splitSp_ne_nil cs)
      · rw [h] at ih
        simp [splitSp, h, unsplit, ih]
    · rcases h : splitSp cs with _ | ⟨l, ls⟩
      · exact absurd h (splitSp_ne_nil cs)
      · rw [h] at ih
        cases ls with
        | nil => simp [splitSp, hc, h, unsplit] at ih ⊢; rw [ih]
        | cons l2 ls2 => simp [splitSp, hc, h, unsplit] at ih ⊢; rw [ih]

lemma digitVal_sound {c : Char} {v : Nat} (h : digitVal c = some v) :
    digitChar v = c ∧ v < 10 := by
  unfold digitVal at h
  split_ifs at h with h0 h1 h2 h3 h4 h5 h6 h7 h8 h9
  all_goals (injection h with hv; subst_vars; exact ⟨rfl, by omega⟩)

lemma parseDay_sound {ds : List Char} {d : Nat} (h : parseDay? ds = some d) :
    ds = render2 d := by
  cases ds with
  | nil => simp [parseDay?] at h
  | cons c rest =>
    cases rest with
    | nil =>
      simp only [parseDay?] at h
      obtain ⟨hc, hlt⟩ := digitVal_sound h
      simp [render2, hlt, hc]
    | cons c2 rest2 =>
      cases rest2 with
      | nil =>
        simp only [parseDay?] at h
        rcases h1 : digitVal c with _ | a <;> rw [h1] at h
        · simp at h
        rcases h2 : digitVal c2 with _ | b <;> rw [h2] at h
        · simp at h
        simp only [] at h
        by_cases ha : a = 0
        · simp [ha] at h
        · rw [if_neg ha] at h
          obtain ⟨hc1, ha10⟩ := digitVal_sound h1
          obtain ⟨hc2, hb10⟩ := digitVal_sound h2
          cases h
          have h10 : ¬ (10 * a + b < 10) := by omega
          have hdiv : (10 * a + b) / 10 = a := by omega
          have hmod : (10 * a + b) % 10 = b := by omega
          simp [render2, h10, hdiv, hmod, hc1, hc2]
      | cons _ _ => simp [parseDay?] at h

lemma idxOfMonthAux_sound :
    ∀ (ns : List (List Char)) (i : Nat) (mo : List Char) (m : Nat),
      idxOfMonthAux ns i mo = some m →
      ∃ j, j < ns.length ∧ ns.getD j [] = mo ∧ m = i + j := by
  intro ns
  induction ns with
  | nil => intro i mo m h; simp [idxOfMonthAux] at h
  | cons n rest ih =>
    intro i mo m h
    simp only [idxOfMonthAux] at h
    split at h
    · cases h
      exact ⟨0, by simp, by simp_all, by omega⟩
    · obtain ⟨j, hj, hg, hm⟩ := ih (i + 1) mo m h
      exact ⟨j + 1, by simpa using hj, by simpa using hg, by omega⟩

lemma idxOfMonth_sound {mo : List Char} {m : Nat} (h : idxOfMonth mo = some m) :
    1 ≤ m ∧ m ≤ 12 ∧ monthName m = mo := by
  obtain ⟨j, hj, hg, hm⟩ := idxOfMonthAux_sound monthNames 1 mo m h
  have hlen : monthNames.length = 12 := rfl
  rw [hlen] at hj
  refine ⟨by omega, by omega, ?_⟩
  have hj' : m - 1 = j := by omega
  rw [monthName, hj', hg]

lemma idxOfMonth_complete : ∀ m < 13, 1 ≤ m → idxOfMonth (monthName m) = some m := by
  decide

lemma parseDay_complete : ∀ d < 32, 1 ≤ d → parseDay? (render2 d) = some d := by
  decide

lemma monthName_noSpace : ∀ m < 13, 1 ≤ m → ∀ c ∈ monthName m, c ≠ ' ' := by
  decide

lemma render2_noSpace : ∀ d < 32, ∀ c ∈ render2 d, c ≠ ' ' := by
  decide

lemma validCal_bounds {y : Int} {m d : Nat} (h : validCal ⟨y, m, d⟩ = true) :
    1 ≤ m ∧ m ≤ 12 ∧ 1 ≤ d ∧ d ≤ daysInMonth y m := by
  simp only [validCal, Bool.and_eq_true, decide_eq_true_eq] at h
  exact ⟨h.1.1.1, h.1.1.2, h.1.2, h.2⟩

lemma daysInMonth_le {y : Int} {m : Nat} : daysInMonth y m ≤ 31 := by
  unfold daysInMonth
  split <;> (try split) <;> omega

lemma daysInMonth_le_leap {y : Int} {m : Nat} :
    daysInMonth y m ≤ daysInMonth 2000 m := by
  have h2000 : isLeap 2000 = true := by decide
  unfold daysInMonth
  split <;> simp [h2000] <;> split <;> omega

lemma parseYear_2000 : parseYear? (s2l "2000") = some 2000 := rfl

lemma parse_format {m d : Nat} (h : validCal ⟨2000, m, d⟩ = true) :
    parse_from_str (formatLabel m d ++ s2l " 2000") = some ⟨2000, m, d⟩ := by
  obtain ⟨h1, h2, h3, h4⟩ := validCal_bounds h
  have hd31 : d ≤ 31 := le_trans h4 daysInMonth_le
  have hsplit : splitSp (formatLabel m d ++ s2l " 2000")
      = [monthName m, render2 d, s2l "2000"] := by
    have e1 : formatLabel m d ++ s2l " 2000"
        = monthName m ++ ' ' :: (render2 d ++ ' ' :: s2l "2000") := by
      simp [formatLabel, List.append_assoc]
      rfl
    rw [e1, splitSp_append, splitSp_append]
    rw [splitSp_eq_single _ (monthName_noSpace m (by omega) h1),
        splitSp_eq_single _ (render2_noSpace d (by omega)),
        splitSp_eq_single _ (by decide)]
    rfl
  simp only [parse_from_str, hsplit]
  rw [idxOfMonth_complete m (by omega) h1, parseDay_complete d (by omega) h3,
      parseYear_2000]
  simp [h]

lemma parse_sound_append {input : List Char} {c : CalDate}
    (h : parse_from_str (input ++ s2l " 2000") = some c) :
    validCal c = true ∧ c.year = 2000 ∧ input = formatLabel c.month c.day := by
  have hs : splitSp (input ++ s2l " 2000") = splitSp input ++ [s2l "2000"] := by
    have e : input ++ s2l " 2000" = input ++ ' ' :: s2l "2000" := rfl
    rw [e, splitSp_append]
    congr 1
  rw [parse_from_str, hs] at h
  rcases hsi : splitSp input with _ | ⟨mo, rest⟩
  · exact absurd hsi (splitSp_ne_nil input)
  rcases rest with _ | ⟨ds, rest2⟩
  · rw [hsi] at h
    simp at h
  rcases rest2 with _ | ⟨x, rest3⟩
  case cons.cons.cons => rw [hsi] at h; simp at h
  rw [hsi] at h
  simp only [List.cons_append, List.nil_append] at h
  rcases hm : idxOfMonth mo with _ | m <;> rw [hm] at h
  · simp at h
  rcases hd : parseDay? ds with _ | d <;> rw [hd] at h
  · simp at h
  rw [parseYear_2000] at h
  simp only [] at h
  split at h
  case isTrue hv =>
    injection h with hc
    subst hc
    obtain ⟨hm1, hm2, hmo⟩ := idxOfMonth_sound hm
    have hds := parseDay_sound hd
    refine ⟨hv, rfl, ?_⟩
    have hu := unsplit_splitSp input
    rw [hsi] at hu
    rw [← hu]
    simp [unsplit, formatLabel, hmo, hds]
  case isFalse => exact absurd h (by simp)

/-! ## Helper lemmas: indexed access and first-match scans -/

lemma getD_of_lt (l : List α) (i : Nat) (d : α) (h : i < l.length) :
    l.getD i d = l[i] := by
  simp [List.getD_eq_getElem?_getD, List.getElem?_eq_getElem h]

lemma getD_drop (L : List α) (n k : Nat) (d : α) :
    (L.drop n).getD k d = L.getD (n + k) d := by
  simp [List.getD_eq_getElem?_getD, List.getElem?_drop]

lemma findIdx_getD {p : α → Bool} {L : List α} (d : α) (h : L.findIdx p < L.length) :
    p (L.getD (L.findIdx p) d) = true := by
  rw [getD_of_lt L _ d h]
  exact List.findIdx_getElem

lemma findIdx_min_getD {p : α → Bool} {L : List α} (d : α) {j : Nat}
    (h : j < L.findIdx p) : p (L.getD j d) = false := by
  rw [getD_of_lt L j d (lt_of_lt_of_le h (List.findIdx_le_length p))]
  exact List.not_of_lt_findIdx h

lemma findIdx_lt_of_getD {p : α → Bool} {L : List α} {d : α} {i : Nat}
    (hi : i < L.length) (h : p (L.getD i d) = true) : L.findIdx p < L.length := by
  apply List.findIdx_lt_length.mpr
  refine ⟨L.getD i d, ?_, h⟩
  rw [getD_of_lt L i d hi]
  exact List.mem_iff_getElem.mpr ⟨i, hi, rfl⟩

lemma findIdx_le_of_getD {p : α → Bool} {L : List α} {d : α} {i : Nat}
    (hi : i < L.length) (h : p (L.getD i d) = true) : L.findIdx p ≤ i := by
  by_contra hc
  push_neg at hc
  rw [findIdx_min_getD d hc] at h
  exact Bool.false_ne_true h

lemma findIdx_eq_getD {p : α → Bool} {L : List α} (d : α) {i : Nat} (h : i < L.length)
    (h1 : p (L.getD i d) = true) (h2 : ∀ j, j < i → p (L.getD j d) = false) :
    L.findIdx p = i := by
  rw [List.findIdx_eq h]
  constructor
  · rw [← getD_of_lt L i d h]
    exact h1
  · intro j hji
    rw [← getD_of_lt L j d (lt_trans hji h)]
    exact h2 j hji

lemma findIdx_eq_length_getD {p : α → Bool} {L : List α} (d : α)
    (h : ∀ k, k < L.length → p (L.getD k d) = false) : L.findIdx p = L.length := by
  apply List.findIdx_eq_length_of_false
  intro x hx
  obtain ⟨k, hk, rfl⟩ := List.getElem_of_mem hx
  rw [← getD_of_lt L k d hk]
  exact h k hk

/-! ## Claim C1 -/

/-- C1: for every document that contains a line beginning with the target
date label and, strictly after it, a line beginning with the successor label,
`get_date_text` returns the half-open range of lines from the first line
whose text starts with the target label (inclusive) up to the first later
line whose text starts with the successor label (exclusive), joined with
newline characters; matching is by line prefix, so trailing text after the
label on a header line is tolerated. -/
theorem C1_locator_returns_half_open_range (text date next : List Char)
    (h : ∃ i j, i < j ∧ j < (linesOf text).length ∧
         startsWith ((linesOf text).getD i []) date = true ∧
         startsWith ((linesOf text).getD j []) next = true) :
    ∃ s e, s < e ∧ e < (linesOf text).length ∧
      startsWith ((linesOf text).getD s []) date = true ∧
      (∀ k, k < s → startsWith ((linesOf text).getD k []) date = false) ∧
      startsWith ((linesOf text).getD e []) next = true ∧
      (∀ k, s < k → k < e → startsWith ((linesOf text).getD k []) next = false) ∧
      get_date_text text date next
        = some (List.intercalate ['\n'] (((linesOf text).drop s).take (e - s))) := by
  obtain ⟨i, j, hij, hj, hdi, hnj⟩ := h
  have hi : i < (linesOf text).length := lt_trans hij hj
  have hsl : (linesOf text).findIdx (fun l => startsWith l date) < (linesOf text).length :=
    findIdx_lt_of_getD hi hdi
  have hsle : (linesOf text).findIdx (fun l => startsWith l date) ≤ i :=
    findIdx_le_of_getD hi hdi
  have hDlen : ((linesOf text).drop ((linesOf text).findIdx (fun l => startsWith l date) + 1)).length
      = (linesOf text).length - ((linesOf text).findIdx (fun l => startsWith l date) + 1) := by
    rw [List.length_drop]
  have hjD : j - ((linesOf text).findIdx (fun l => startsWith l date) + 1)
      < ((linesOf text).drop ((linesOf text).findIdx (fun l => startsWith l date) + 1)).length := by
    omega
  have hqD : (fun l => startsWith l next)
      (((linesOf text).drop ((linesOf text).findIdx (fun l => startsWith l date) + 1)).getD
        (j - ((linesOf text).findIdx (fun l => startsWith l date) + 1)) []) = true := by
    rw [getD_drop]
    have e : (linesOf text).findIdx (fun l => startsWith l date) + 1 +
        (j - ((linesOf text).findIdx (fun l => startsWith l date) + 1)) = j := by omega
    rw [e]
    exact hnj
  have hfD : ((linesOf text).drop ((linesOf text).findIdx (fun l => startsWith l date) + 1)).findIdx
        (fun l => startsWith l next)
      < ((linesOf text).drop ((linesOf text).findIdx (fun l => startsWith l date) + 1)).length :=
    findIdx_lt_of_getD hjD hqD
  refine ⟨(linesOf text).findIdx (fun l => startsWith l date),
    (linesOf text).findIdx (fun l => startsWith l date) + 1 +
      ((linesOf text).drop ((linesOf text).findIdx (fun l => startsWith l date) + 1)).findIdx
        (fun l => startsWith l next),
    by omega, by omega, ?_, ?_, ?_, ?_, ?_⟩
  · exact findIdx_getD [] hsl
  · intro k hk
    exact findIdx_min_getD [] hk
  · have hq := findIdx_getD []
      hfD
    rw [getD_drop] at hq
    exact hq
  · intro k hks hke
    have hkD : k - ((linesOf text).findIdx (fun l => startsWith l date) + 1)
        < ((linesOf text).drop ((linesOf text).findIdx (fun l => startsWith l date) + 1)).findIdx
            (fun l => startsWith l next) := by omega
    have hv := findIdx_min_getD ([] : List Char) hkD
    rw [getD_drop] at hv
    have e : (linesOf text).findIdx (fun l => startsWith l date) + 1 +
        (k - ((linesOf text).findIdx (fun l => startsWith l date) + 1)) = k := by omega
    rw [e] at hv
    exact hv
  · rw [get_date_text]
    simp only []
    rw [if_neg (by omega), if_neg (by omega)]

/-- C1 witness: a concrete document with a "March 3" header line (with
trailing text) and a later "March 4" header line. -/
theorem C1_witness :
    ∃ s e, s < e ∧ e < (linesOf (s2l "March 3 header\nbody line\nMarch 4 next")).length ∧
      startsWith ((linesOf (s2l "March 3 header\nbody line\nMarch 4 next")).getD s [])
        (s2l "March 3") = true ∧
      (∀ k, k < s →
        startsWith ((linesOf (s2l "March 3 header\nbody line\nMarch 4 next")).getD k [])
          (s2l "March 3") = false) ∧
      startsWith ((linesOf (s2l "March 3 header\nbody line\nMarch 4 next")).getD e [])
        (s2l "March 4") = true ∧
      (∀ k, s < k → k < e →
        startsWith ((linesOf (s2l "March 3 header\nbody line\nMarch 4 next")).getD k [])
          (s2l "March 4") = false) ∧
      get_date_text (s2l "March 3 header\nbody line\nMarch 4 next") (s2l "March 3") (s2l "March 4")
        = some (List.intercalate ['\n']
            (((linesOf (s2l "March 3 header\nbody line\nMarch 4 next")).drop s).take (e - s))) :=
  C1_locator_returns_half_open_range (s2l "March 3 header\nbody line\nMarch 4 next")
    (s2l "March 3") (s2l "March 4") ⟨0, 2, by decide⟩

/-! ## Claim C3 -/

/-- C3: `get_date_text` returns no block exactly when no line of the
document begins with the target label, or when no line after the first
target-label line begins with the successor label (the last-entry sentinel
being just such a successor string). -/
theorem C3_locator_none_iff (text date next : List Char) :
    get_date_text text date next = none ↔
      ((∀ k, k < (linesOf text).length →
          startsWith ((linesOf text).getD k []) date = false) ∨
       (∃ s, s < (linesOf text).length ∧
          startsWith ((linesOf text).getD s []) date = true ∧
          (∀ k, k < s → startsWith ((linesOf text).getD k []) date = false) ∧
          (∀ k, s < k → k < (linesOf text).length →
             startsWith ((linesOf text).getD k []) next = false))) := by
  have hDlen : ((linesOf text).drop ((linesOf text).findIdx (fun l => startsWith l date) + 1)).length
      = (linesOf text).length - ((linesOf text).findIdx (fun l => startsWith l date) + 1) := by
    rw [List.length_drop]
  have hfle : ((linesOf text).drop ((linesOf text).findIdx (fun l => startsWith l date) + 1)).findIdx
        (fun l => startsWith l next)
      ≤ ((linesOf text).drop ((linesOf text).findIdx (fun l => startsWith l date) + 1)).length :=
    List.findIdx_le_length _
  constructor
  · intro h
    by_cases hs : (linesOf text).findIdx (fun l => startsWith l date) ≥ (linesOf text).length
    · left
      intro k hk
      have hklt : k < (linesOf text).findIdx (fun l => startsWith l date) := by omega
      exact findIdx_min_getD [] hklt
    · push_neg at hs
      right
      refine ⟨(linesOf text).findIdx (fun l => startsWith l date), hs, findIdx_getD [] hs,
        fun k hk => findIdx_min_getD [] hk, ?_⟩
      rw [get_date_text] at h
      simp only [] at h
      rw [if_neg (by omega)] at h
      by_cases hstop : (linesOf text).findIdx (fun l => startsWith l date) + 1 +
          ((linesOf text).drop ((linesOf text).findIdx (fun l => startsWith l date) + 1)).findIdx
            (fun l => startsWith l next) ≥ (linesOf text).length
      · intro k hks hkl
        have hkD : k - ((linesOf text).findIdx (fun l => startsWith l date) + 1)
            < ((linesOf text).drop ((linesOf text).findIdx (fun l => startsWith l date) + 1)).findIdx
                (fun l => startsWith l next) := by omega
        have hv := findIdx_min_getD ([] : List Char) hkD
        rw [getD_drop] at hv
        have e : (linesOf text).findIdx (fun l => startsWith l date) + 1 +
            (k - ((linesOf text).findIdx (fun l => startsWith l date) + 1)) = k := by omega
        rw [e] at hv
        exact hv
      · rw [if_neg hstop] at h
        exact absurd h (by simp)
  · intro h
    rcases h with h | ⟨s, hs, hps, hmin, hnone⟩
    · have he : (linesOf text).findIdx (fun l => startsWith l date) = (linesOf text).length :=
        findIdx_eq_length_getD [] h
      rw [get_date_text]
      simp only []
      rw [if_pos (by omega)]
    · have hfe : (linesOf text).findIdx (fun l => startsWith l date) = s :=
        findIdx_eq_getD [] hs hps hmin
      have hDf : ((linesOf text).drop (s + 1)).findIdx (fun l => startsWith l next)
          = ((linesOf text).drop (s + 1)).length := by
        apply findIdx_eq_length_getD
        intro k hk
        rw [List.length_drop] at hk
        rw [getD_drop]
        exact hnone (s + 1 + k) (by omega) (by omega)
      rw [get_date_text]
      simp only []
      rw [hfe]
      rw [if_neg (by omega)]
      rw [hDf, if_pos (by rw [List.length_drop]; omega)]

/-- C3 witness: a document with the target header but no successor header
at all (the sentinel never appears) is rejected. -/
theorem C3_witness :
    get_date_text (s2l "March 3\nbody line\nmore text") (s2l "March 3") (s2l "STAYING STOIC")
      = none :=
  (C3_locator_none_iff (s2l "March 3\nbody line\nmore text") (s2l "March 3")
      (s2l "STAYING STOIC")).mpr
    (Or.inr ⟨0, by decide, by decide, by omega, by
      intro k hk1 hk2
      have hlen : (linesOf (s2l "March 3\nbody line\nmore text")).length = 3 := by decide
      rw [hlen] at hk2
      interval_cases k <;> decide⟩)

/-! ## Helper lemmas: membership, trimming, joining -/

lemma getD_mem {L : List α} {k : Nat} {d : α} (h : k < L.length) : L.getD k d ∈ L := by
  rw [getD_of_lt L k d h]
  exact List.mem_iff_getElem.mpr ⟨k, h, rfl⟩

lemma getD_take {L : List α} {n k : Nat} {d : α} (h : k < n) :
    (L.take n).getD k d = L.getD k d := by
  simp [List.getD_eq_getElem?_getD, List.getElem?_take_of_lt h]

lemma mem_dropWhile_of_neg {p : α → Bool} {c : α} (h : p c = false) :
    ∀ {l : List α}, c ∈ l → c ∈ l.dropWhile p := by
  intro l
  induction l with
  | nil => intro h2; exact absurd h2 (List.not_mem_nil c)
  | cons a t ih =>
    intro h2
    by_cases hp : p a = true
    · rw [List.dropWhile_cons_of_pos hp]
      rcases List.mem_cons.mp h2 with rfl | h3
      · rw [hp] at h; exact absurd h (by simp)
      · exact ih h3
    · rw [List.dropWhile_cons_of_neg (by simpa using hp)]
      exact h2

lemma trim_ne_nil {l : List Char} {c : Char} (hc : c ∈ l) (hw : isWS c = false) :
    trim l ≠ [] := by
  have h1 : c ∈ l.dropWhile isWS := mem_dropWhile_of_neg hw hc
  have h2 : c ∈ (l.dropWhile isWS).reverse := List.mem_reverse.mpr h1
  have h3 : c ∈ (l.dropWhile isWS).reverse.dropWhile isWS := mem_dropWhile_of_neg hw h2
  exact List.ne_nil_of_mem (List.mem_reverse.mpr h3)

lemma intercalate_cons₂ (sep x y : List α) (zs : List (List α)) :
    List.intercalate sep (x :: y :: zs) = x ++ sep ++ List.intercalate sep (y :: zs) := by
  simp [List.intercalate]

lemma mem_intercalate {sep : List α} {c : α} :
    ∀ {xs : List (List α)} {l : List α}, l ∈ xs → c ∈ l → c ∈ List.intercalate sep xs := by
  intro xs
  induction xs with
  | nil => intro l h _; exact absurd h (List.not_mem_nil l)
  | cons x rest ih =>
    intro l hl hc
    rcases List.mem_cons.mp hl with rfl | h2
    · cases rest with
      | nil => simpa [List.intercalate] using hc
      | cons y zs =>
        rw [intercalate_cons₂]
        simp [hc]
    · cases rest with
      | nil => exact absurd h2 (List.not_mem_nil l)
      | cons y zs =>
        rw [intercalate_cons₂]
        have := ih h2 hc
        simp [this]

/-! ## The segmenter equation -/

lemma format_daily_eq (text : List Char) (pivot : Nat)
    (h2 : 2 ≤ pivot) (hlt : pivot < (linesOf text).length)
    (hm : startsWith ((linesOf text).getD pivot []) emdashStr = true)
    (hfirst : ∀ k, k < pivot → startsWith ((linesOf text).getD k []) emdashStr = false) :
    format_daily text = some
      { date := trim ((linesOf text).getD 0 [])
        title := trim ((linesOf text).getD 1 [])
        quote := trim (List.intercalate [' '] (((linesOf text).drop 2).take (pivot - 2)))
        quoter := trim ((linesOf text).getD pivot [])
        explanation := trim (List.intercalate [' '] ((linesOf text).drop (pivot + 1))) } := by
  have hg0 : (linesOf text).get? 0 = some ((linesOf text).getD 0 []) := by
    rw [List.get?_eq_getElem?, List.getElem?_eq_getElem (by omega),
      getD_of_lt _ _ _ (by omega)]
  have hg1 : (linesOf text).get? 1 = some ((linesOf text).getD 1 []) := by
    rw [List.get?_eq_getElem?, List.getElem?_eq_getElem (by omega),
      getD_of_lt _ _ _ (by omega)]
  have hrel : ((linesOf text).drop 2).findIdx (fun l => startsWith l emdashStr) = pivot - 2 := by
    apply findIdx_eq_getD []
    · rw [List.length_drop]; omega
    · rw [getD_drop]
      have e : 2 + (pivot - 2) = pivot := by omega
      rw [e]
      exact hm
    · intro j hj
      rw [getD_drop]
      exact hfirst (2 + j) (by omega)
  rw [format_daily]
  simp only [hg0, hg1]
  rw [hrel, if_pos (by rw [List.length_drop]; omega)]
  have e2 : 2 + (pivot - 2) = pivot := by omega
  rw [e2]

/-! ## Claim C2 -/

/-- C2: for a block whose first em-dash-marked line sits at index
`pivot ≥ 2`, `format_daily` yields date = line 0 trimmed, title = line 1
trimmed, quote = lines `[2, pivot)` joined with single spaces and trimmed,
attribution = the pivot line trimmed, and explanation = lines after the
pivot joined with single spaces and trimmed. -/
theorem C2_segmenter_fields (text : List Char) (pivot : Nat)
    (h2 : 2 ≤ pivot) (hlt : pivot < (linesOf text).length)
    (hm : startsWith ((linesOf text).getD pivot []) emdashStr = true)
    (hfirst : ∀ k, k < pivot → startsWith ((linesOf text).getD k []) emdashStr = false) :
    format_daily text = some
      { date := trim ((linesOf text).getD 0 [])
        title := trim ((linesOf text).getD 1 [])
        quote := trim (List.intercalate [' '] (((linesOf text).drop 2).take (pivot - 2)))
        quoter := trim ((linesOf text).getD pivot [])
        explanation := trim (List.intercalate [' '] ((linesOf text).drop (pivot + 1))) } :=
  format_daily_eq text pivot h2 hlt hm hfirst

/-- C2 witness: the spec's six-line example block segments to exactly the
stated quote, attribution and explanation. -/
theorem C2_witness :
    format_daily
        (s2l "March 3\nTitle\nLine one of quote\nLine two of quote\n—Author Name\nExplanation sentence.")
      = some
        { date := s2l "March 3"
          title := s2l "Title"
          quote := s2l "Line one of quote Line two of quote"
          quoter := s2l "—Author Name"
          explanation := s2l "Explanation sentence." } :=
  (C2_segmenter_fields
      (s2l "March 3\nTitle\nLine one of quote\nLine two of quote\n—Author Name\nExplanation sentence.")
      4 (by omega) (by decide) (by decide) (by decide)).trans (by decide)

/-! ## Claim C4 -/

/-- C4: a block of fewer than 2 lines, or one with no em-dash-marked line at
all, makes `format_daily` fail (the modelled panic) rather than produce a
record with an empty field. -/
theorem C4_segmenter_malformed (text : List Char) :
    ((linesOf text).length < 2 → format_daily text = none) ∧
    ((∀ l ∈ linesOf text, startsWith l emdashStr = false) → format_daily text = none) := by
  constructor
  · intro hlen
    rcases hL : linesOf text with _ | ⟨l0, rest⟩
    · simp [format_daily, hL]
    rcases rest with _ | ⟨l1, rest2⟩
    · simp [format_daily, hL]
    · rw [hL] at hlen
      simp only [List.length_cons] at hlen
      omega
  · intro h
    rcases hL : linesOf text with _ | ⟨l0, rest⟩
    · simp [format_daily, hL]
    rcases rest with _ | ⟨l1, rest2⟩
    · simp [format_daily, hL]
    have hD : rest2.findIdx (fun l => startsWith l emdashStr) = rest2.length := by
      apply List.findIdx_eq_length_of_false
      intro x hx
      apply h
      rw [hL]
      exact List.mem_cons_of_mem _ (List.mem_cons_of_mem _ hx)
    simp [format_daily, hL, hD]

/-- C4 witness: a one-line block and a marker-free three-line block both
fail. -/
theorem C4_witness :
    format_daily (s2l "March 3") = none ∧ format_daily (s2l "March 3\nTitle\nQuote line") = none :=
  ⟨(C4_segmenter_malformed (s2l "March 3")).1 (by decide),
   (C4_segmenter_malformed (s2l "March 3\nTitle\nQuote line")).2 (by decide)⟩

/-! ## Claim C7 -/

/-- C7 counterexample: the block `"D\nT\n \n—A\n "` is well-formed in the
claim's sense — its first em-dash-marked line sits at index 3, with a quote
line (index 2) before it and an explanation line (index 4) after it — yet
both the quote and the explanation field of the segmented record are empty,
because those lines hold only whitespace. -/
theorem C7_counterexample :
    (linesOf (s2l "D\nT\n \n—A\n ")).length = 5 ∧
    startsWith ((linesOf (s2l "D\nT\n \n—A\n ")).getD 3 []) emdashStr = true ∧
    (∀ k, k < 3 → startsWith ((linesOf (s2l "D\nT\n \n—A\n ")).getD k []) emdashStr = false) ∧
    (format_daily (s2l "D\nT\n \n—A\n ")).map Daily.quote = some [] ∧
    (format_daily (s2l "D\nT\n \n—A\n ")).map Daily.explanation = some [] ∧
    ¬ (∀ text : List Char, ∀ pivot : Nat, 2 ≤ pivot → pivot < (linesOf text).length →
        startsWith ((linesOf text).getD pivot []) emdashStr = true →
        (∀ k, k < pivot → startsWith ((linesOf text).getD k []) emdashStr = false) →
        ∀ d2, format_daily text = some d2 → d2.quote ≠ [] ∧ d2.explanation ≠ []) := by
  refine ⟨by decide, by decide, by decide, by decide, by decide, ?_⟩
  intro hall
  exact (hall (s2l "D\nT\n \n—A\n ") 3 (by omega) (by decide) (by decide) (by decide)
    ⟨s2l "D", s2l "T", [], s2l "—A", []⟩ (by decide)).1 rfl

/-- C7 (amended): for a well-formed block (first em-dash-marked line at
index `pivot ≥ 2`) the quote is non-empty provided some line strictly
between the header lines and the pivot holds a non-whitespace character,
and the explanation is non-empty provided some line after the pivot holds a
non-whitespace character. -/
theorem C7_amended_nonempty_fields (text : List Char) (pivot : Nat)
    (h2 : 2 ≤ pivot) (hlt : pivot < (linesOf text).length)
    (hm : startsWith ((linesOf text).getD pivot []) emdashStr = true)
    (hfirst : ∀ k, k < pivot → startsWith ((linesOf text).getD k []) emdashStr = false)
    (ha : ∃ k, 2 ≤ k ∧ k < pivot ∧ ∃ c ∈ (linesOf text).getD k [], isWS c = false)
    (hb : ∃ k, pivot < k ∧ k < (linesOf text).length ∧
          ∃ c ∈ (linesOf text).getD k [], isWS c = false) :
    ∃ d, format_daily text = some d ∧ d.quote ≠ [] ∧ d.explanation ≠ [] := by
  refine ⟨_, format_daily_eq text pivot h2 hlt hm hfirst, ?_, ?_⟩
  · obtain ⟨k, hk2, hkp, c, hcl, hcw⟩ := ha
    apply trim_ne_nil _ hcw
    apply mem_intercalate _ hcl
    have hmem : ((linesOf text).drop 2).take (pivot - 2) =
        ((linesOf text).drop 2).take (pivot - 2) := rfl
    have hidx : (((linesOf text).drop 2).take (pivot - 2)).getD (k - 2) []
        = (linesOf text).getD k [] := by
      rw [getD_take (by omega), getD_drop]
      have e : 2 + (k - 2) = k := by omega
      rw [e]
    rw [← hidx]
    apply getD_mem
    rw [List.length_take, List.length_drop]
    omega
  · obtain ⟨k, hkp, hkl, c, hcl, hcw⟩ := hb
    apply trim_ne_nil _ hcw
    apply mem_intercalate _ hcl
    have hidx : ((linesOf text).drop (pivot + 1)).getD (k - (pivot + 1)) []
        = (linesOf text).getD k [] := by
      rw [getD_drop]
      have e : pivot + 1 + (k - (pivot + 1)) = k := by omega
      rw [e]
    rw [← hidx]
    apply getD_mem
    rw [List.length_drop]
    omega

/-- C7 witness: a block with real quote and explanation text gets non-empty
quote and explanation fields. -/
theorem C7_witness :
    ∃ d, format_daily (s2l "D\nT\nq\n—A\ne") = some d ∧ d.quote ≠ [] ∧ d.explanation ≠ [] :=
  C7_amended_nonempty_fields (s2l "D\nT\nq\n—A\ne") 3 (by omega) (by decide) (by decide)
    (by decide) ⟨2, by omega, by omega, 'q', by decide, by decide⟩
    ⟨4, by omega, by decide, 'e', by decide, by decide⟩

/-! ## Date-pipeline helper -/

lemma with_year_2000 {c : CalDate} (h : validCal c = true) :
    with_year c 2000 = some ⟨2000, c.month, c.day⟩ := by
  rcases c with ⟨y, m, d⟩
  obtain ⟨h1, h2, h3, h4⟩ := validCal_bounds h
  have hv2 : validCal ⟨2000, m, d⟩ = true := by
    simp only [validCal, Bool.and_eq_true, decide_eq_true_eq]
    exact ⟨⟨⟨h1, h2⟩, h3⟩, le_trans h4 daysInMonth_le_leap⟩
  rw [with_year]
  simp only []
  rw [if_pos hv2]

/-! ## Claim C9 -/

/-- C9: the successor labels around the leap day — `"February 28"` steps to
`"February 29"` and `"February 29"` to `"March 1"`, because the arithmetic
is anchored in the reference leap year. -/
theorem C9_leap_day_successors :
    increment_date (s2l "February 28") = some (s2l "February 29") ∧
    increment_date (s2l "February 29") = some (s2l "March 1") := by
  decide

/-! ## Claim C6 -/

/-- C6: with target `"December 31"` the pipeline hands the fixed sentinel
`"STAYING STOIC"` to the locator — not the date-arithmetic successor, which
would be `"January 1"` — while every other valid target date gets its
computed next calendar day label. -/
theorem C6_sentinel_for_last_day :
    next_date_of (s2l "December 31") = some (s2l "STAYING STOIC") ∧
    increment_date (s2l "December 31") = some (s2l "January 1") ∧
    (∀ m d, validCal ⟨2000, m, d⟩ = true → formatLabel m d ≠ s2l "December 31" →
      next_date_of (formatLabel m d)
        = some (formatLabel (succDay ⟨2000, m, d⟩).month (succDay ⟨2000, m, d⟩).day)) := by
  refine ⟨by decide, by decide, ?_⟩
  intro m d hv hne
  rw [next_date_of, if_neg hne, increment_date, parse_format hv]
  rfl

/-- C6 witness: "March 3" is not the last day, so its boundary is the
computed successor. -/
theorem C6_witness :
    next_date_of (formatLabel 3 3)
      = some (formatLabel (succDay ⟨2000, 3, 3⟩).month (succDay ⟨2000, 3, 3⟩).day) :=
  C6_sentinel_for_last_day.2.2 3 3 (by decide) (by decide)

/-! ## Claim C10 -/

/-- C10: on any label that renders a valid day of the reference leap year
2000, the re-parse inside `increment_date` succeeds (no panic), and
re-anchoring any valid real date to the year 2000 always succeeds (every
month/day of any year exists in the leap year 2000). -/
theorem C10_internal_parses_total :
    (∀ m d, validCal ⟨2000, m, d⟩ = true →
       (increment_date (formatLabel m d)).isSome = true) ∧
    (∀ c : CalDate, validCal c = true → (with_year c 2000).isSome = true) := by
  constructor
  · intro m d hv
    rw [increment_date, parse_format hv]
    rfl
  · intro c hv
    rw [with_year_2000 hv]
    rfl

/-- C10 witness: the leap day itself re-parses, and New Year's Eve of the
non-leap year 1999 re-anchors to 2000. -/
theorem C10_witness :
    (increment_date (formatLabel 2 29)).isSome = true ∧
    (with_year ⟨1999, 12, 31⟩ 2000).isSome = true :=
  ⟨C10_internal_parses_total.1 2 29 (by decide),
   C10_internal_parses_total.2 ⟨1999, 12, 31⟩ (by decide)⟩

/-! ## Claim C8 -/

/-- C8: with a positional date argument present (index 2 of the raw argument
list), a canonical label of a valid day of the reference leap year is
accepted and becomes the target date, any other string is rejected with the
invalid-date error; with the argument absent the target date defaults to the
current system date re-anchored to the reference leap year, rendered as full
month name plus non-zero-padded day. -/
theorem C8_cli_date_argument (args : List (List Char)) (today : CalDate)
    (ht : validCal today = true) :
    (∀ m d, 3 ≤ args.length → validCal ⟨2000, m, d⟩ = true →
       args.getD 2 [] = formatLabel m d →
       get_date_arg args today = some (Except.ok (formatLabel m d))) ∧
    (3 ≤ args.length →
       (∀ m, m < 13 → ∀ d, d < 32 → validCal ⟨2000, m, d⟩ = true →
          args.getD 2 [] ≠ formatLabel m d) →
       get_date_arg args today
         = some (Except.error (s2l "Invalid date format for arg " ++ args.getD 2 []))) ∧
    (args.length < 3 →
       get_date_arg args today = some (Except.ok (formatLabel today.month today.day))) := by
  refine ⟨?_, ?_, ?_⟩
  · intro m d hlen hv harg
    rw [get_date_arg, if_neg (by omega)]
    simp only []
    rw [harg, parse_format hv]
  · intro hlen hno
    rw [get_date_arg, if_neg (by omega)]
    simp only []
    rcases hp : parse_from_str (args.getD 2 [] ++ s2l " 2000") with _ | c
    · rfl
    · obtain ⟨hv, hy, heq⟩ := parse_sound_append hp
      rcases c with ⟨y, m, d⟩
      simp only [] at hv hy heq
      obtain ⟨h1, h2, h3, h4⟩ := validCal_bounds hv
      subst hy
      exact absurd heq
        (hno m (by omega) d (by have := le_trans h4 daysInMonth_le; omega) hv)
  · intro hlen
    rw [get_date_arg, if_pos (by omega), with_year_2000 ht]
    rfl

/-- C8 witness: "March 3" is accepted, "Foo 3" is rejected, and with no
argument the May 7 system date yields the label "May 7". -/
theorem C8_witness :
    get_date_arg [s2l "prog", s2l "flag", s2l "March 3"] ⟨2024, 5, 7⟩
      = some (Except.ok (formatLabel 3 3)) ∧
    get_date_arg [s2l "prog", s2l "flag", s2l "Foo 3"] ⟨2024, 5, 7⟩
      = some (Except.error (s2l "Invalid date format for arg " ++ s2l "Foo 3")) ∧
    get_date_arg [s2l "prog"] ⟨2024, 5, 7⟩ = some (Except.ok (formatLabel 5 7)) :=
  ⟨(C8_cli_date_argument [s2l "prog", s2l "flag", s2l "March 3"] ⟨2024, 5, 7⟩ (by decide)).1
      3 3 (by decide) (by decide) (by decide),
   (C8_cli_date_argument [s2l "prog", s2l "flag", s2l "Foo 3"] ⟨2024, 5, 7⟩ (by decide)).2.1
      (by decide) (by decide),
   (C8_cli_date_argument [s2l "prog"] ⟨2024, 5, 7⟩ (by decide)).2.2 (by decide)⟩

/-! ## Claim C5 -/

/-- C5: the correction step fails exactly when the collaborator response
carries a top-level error object (failing with its message when present,
else a generic failure) or when the nested content field is absent; on any
such failure no corrected record is produced, and a record is surfaced as
success only when both fields were corrected. -/
theorem C5_correction_failure (resp respQ respE : Json) (d : Daily) :
    ((∃ err, fix_text_using_llm resp = Except.error err) ↔
      ((∃ e, resp.get (s2l "error") = some e) ∨
       Json.as_str ((((resp.index (s2l "choices")).indexNat 0).index
           (s2l "message")).index (s2l "content")) = none)) ∧
    (∀ e, resp.get (s2l "error") = some e →
      fix_text_using_llm resp = Except.error
        (match e.get (s2l "message") with
         | some m => FixErr.errWithMessage m
         | none => FixErr.errNoMessage)) ∧
    (((∃ err, fix_text_using_llm respQ = Except.error err) ∨
      (∃ err, fix_text_using_llm respE = Except.error err)) →
      ∃ err, apply_corrections d respQ respE = Except.error err) ∧
    (∀ d2, apply_corrections d respQ respE = Except.ok d2 →
      fix_text_using_llm respQ = Except.ok d2.quote ∧
      fix_text_using_llm respE = Except.ok d2.explanation ∧
      d2.date = d.date ∧ d2.title = d.title ∧ d2.quoter = d.quoter) := by
  refine ⟨⟨?_, ?_⟩, ?_, ?_, ?_⟩
  · rintro ⟨err, herr⟩
    rcases hgn : resp.get (s2l "error") with _ | e
    · right
      simp only [fix_text_using_llm, hgn] at herr
      rcases has : Json.as_str ((((resp.index (s2l "choices")).indexNat 0).index
          (s2l "message")).index (s2l "content")) with _ | s
      · rfl
      · rw [has] at herr
        exact absurd herr (by simp)
    · exact Or.inl ⟨e, rfl⟩
  · intro h
    rcases h with ⟨e, hg⟩ | has
    · rcases hm : e.get (s2l "message") with _ | m
      · exact ⟨FixErr.errNoMessage, by simp only [fix_text_using_llm, hg, hm]⟩
      · exact ⟨FixErr.errWithMessage m, by simp only [fix_text_using_llm, hg, hm]⟩
    · rcases hg : resp.get (s2l "error") with _ | e
      · exact ⟨FixErr.noContent, by simp only [fix_text_using_llm, hg, has]⟩
      · rcases hm : e.get (s2l "message") with _ | m
        · exact ⟨FixErr.errNoMessage, by simp only [fix_text_using_llm, hg, hm]⟩
        · exact ⟨FixErr.errWithMessage m, by simp only [fix_text_using_llm, hg, hm]⟩
  · intro e hg
    rcases hm : e.get (s2l "message") with _ | m <;>
      simp only [fix_text_using_llm, hg, hm]
  · intro h
    rcases hq : fix_text_using_llm respQ with e1 | q1
    · refine ⟨e1, ?_⟩
      unfold apply_corrections
      rw [hq]
    · rcases he : fix_text_using_llm respE with e2 | q2
      · refine ⟨e2, ?_⟩
        unfold apply_corrections
        rw [hq, he]
      · rcases h with ⟨err, h3⟩ | ⟨err, h3⟩
        · rw [hq] at h3
          exact absurd h3 (by simp)
        · rw [he] at h3
          exact absurd h3 (by simp)
  · intro d2 h
    unfold apply_corrections at h
    rcases hq : fix_text_using_llm respQ with e1 | q1 <;> rw [hq] at h
    · exact absurd h (by simp)
    · rcases he : fix_text_using_llm respE with e2 | q2 <;> rw [he] at h
      · exact absurd h (by simp)
      · injection h with h2
        subst h2
        exact ⟨rfl, rfl, rfl, rfl, rfl⟩

/-- C5 witness: an error object with a message fails with exactly that
message; an error object without a message makes the whole correction step
fail, so no record is surfaced. -/
theorem C5_witness :
    fix_text_using_llm
        (Json.obj [(s2l "error", Json.obj [(s2l "message", Json.str (s2l "boom"))])])
      = Except.error (FixErr.errWithMessage (Json.str (s2l "boom"))) ∧
    (∃ err, apply_corrections ⟨[], [], s2l "q", [], s2l "e"⟩
        (Json.obj [(s2l "error", Json.obj [])]) (Json.obj [])
      = Except.error err) :=
  ⟨(C5_correction_failure
        (Json.obj [(s2l "error", Json.obj [(s2l "message", Json.str (s2l "boom"))])])
        Json.null Json.null ⟨[], [], [], [], []⟩).2.1
      (Json.obj [(s2l "message", Json.str (s2l "boom"))]) rfl,
   (C5_correction_failure Json.null
        (Json.obj [(s2l "error", Json.obj [])]) (Json.obj [])
        ⟨[], [], s2l "q", [], s2l "e"⟩).2.2.1
      (Or.inl ⟨FixErr.errNoMessage, rfl⟩)⟩
